import Mathlib

/-!
Shallow embedding of the text-extraction pipeline of the
`parse_pdf_from_url` repository.

A Python `str` is a sequence of code points, so it is modelled as
`List Char` (named `Str` below).  The Python string methods used by the
source are implemented on that representation.  External effectful
collaborators (the filesystem, `langdetect`, Tesseract, `pdf2image`,
MongoDB, the thread pool) enter the model as explicit parameters: an
`Option`-valued argument models a call that may raise an exception, and
the order in which a thread pool yields results is an explicit argument
wherever the source consumes results in completion order.
-/

abbrev Str := List Char

/-- Python ASCII whitespace, the character class stripped by `str.strip()`
and matched by the regex class `\s` on the ASCII fragment that the sources
manipulate. -/
def isPySpace (c : Char) : Bool :=
  c = ' ' || c = '\t' || c = '\n' || c = '\r' || c = '\x0b' || c = '\x0c'

/-- Python `s.strip()`: remove leading and trailing whitespace. -/
def pyStrip (s : Str) : Str := (s.dropWhile isPySpace).rdropWhile isPySpace

/-- Python `sep.join(parts)`. -/
def pyJoin (sep : Str) : List Str → Str
  | [] => []
  | [s] => s
  | s :: rest => s ++ sep ++ pyJoin sep rest

/-- Python `s.split(sep)` for a one-character separator (used by the
sources with `"\n"` and `"."`). -/
def pySplit (sep : Char) : Str → List Str
  | [] => [[]]
  | c :: rest =>
    match pySplit sep rest with
    | [] => if c = sep then [[], []] else [[c]]
    | p :: ps => if c = sep then [] :: p :: ps else (c :: p) :: ps

/-- Python substring membership `needle in hay`. -/
def containsSub (needle : Str) : Str → Bool
  | [] => needle.isEmpty
  | c :: rest => needle.isPrefixOf (c :: rest) || containsSub needle rest

/-! ## URL normalisation: `fix_url`
(src/extract.py lines 75-86; the same function appears verbatim in
src/en_extract.py lines 33-44 and src/en_hin_extract.py lines 38-49.) -/

/-- The literal separator `"doWeb"` that `fix_url` splits on. -/
def doWebLit : Str := ['d', 'o', 'W', 'e', 'b']

/-- The literal replacement `"do?Web"` that `fix_url` rejoins with. -/
def fixUrlRepl : Str := ['d', 'o', '?', 'W', 'e', 'b']

/-- Python `url.split("doWeb")`: leftmost non-overlapping scan, specialised
to the literal separator used by `fix_url`. -/
def splitOnDoWeb : Str → List Str
  | [] => [[]]
  | c :: rest =>
    if doWebLit.isPrefixOf (c :: rest) then
      [] :: splitOnDoWeb (rest.drop 4)
    else
      match splitOnDoWeb rest with
      | [] => [[c]]
      | p :: ps => (c :: p) :: ps
termination_by s => s.length
decreasing_by
  · simp only [List.length_cons, List.length_drop]
    omega
  · simp only [List.length_cons]
    omega

/-- Python `fix_url`: if the URL contains `"doWeb"`, split on it and rejoin
the first two parts around `"do?Web"`; otherwise return it unchanged. -/
def fix_url (url : Str) : Str :=
  if containsSub doWebLit url then
    let parts := splitOnDoWeb url
    if parts.length > 1 then
      (parts.headD []) ++ fixUrlRepl ++ (parts.getD 1 [])
    else url
  else url

/-! ## Language filter (src/parsingText2.py lines 132-203) -/

/-- Python `str.upper()` on the ASCII fragment the sources compare against. -/
def pyUpper (s : Str) : Str := s.map Char.toUpper

/-- The regex `^\s*\d+\]\s*$` from `remove_unwanted_headers`: optional
whitespace, one or more digits, a literal closing bracket, optional
whitespace.  The character classes are disjoint, so the greedy match is
this deterministic parse. -/
def matchesPageNum (s : Str) : Bool :=
  let s1 := s.dropWhile isPySpace
  let ds := s1.takeWhile Char.isDigit
  let rest := s1.dropWhile Char.isDigit
  !ds.isEmpty &&
    match rest with
    | ']' :: r => r.all isPySpace
    | _ => false

/-- The literal `"GAZETTE OF INDIA"` tested by `remove_unwanted_headers`. -/
def gazetteLit : Str :=
  ['G', 'A', 'Z', 'E', 'T', 'T', 'E', ' ', 'O', 'F', ' ', 'I', 'N', 'D', 'I', 'A']

/-- The literal `"EXTRAORDINARY"` tested by `remove_unwanted_headers`. -/
def extraLit : Str :=
  ['E', 'X', 'T', 'R', 'A', 'O', 'R', 'D', 'I', 'N', 'A', 'R', 'Y']

/-- One line survives `remove_unwanted_headers` when its uppercased,
stripped form contains neither Gazette marker and is not a bare bracketed
page number. -/
def keepLine (line : Str) : Bool :=
  let u := pyStrip (pyUpper line)
  !(containsSub gazetteLit u) && !(containsSub extraLit u) && !(matchesPageNum u)

/-- Python `remove_unwanted_headers` (src/parsingText2.py lines 132-149). -/
def remove_unwanted_headers (text : Str) : Str :=
  pyJoin ['\n'] ((pySplit '\n' text).filter keepLine)

/-- Python `split_into_sentences`: split on the period character. -/
def split_into_sentences (text : Str) : List Str := pySplit '.' text

/-- Python `is_english_or_hindi_sentence`, with the external `langdetect`
classifier as an explicit oracle `D`; a `none` result models a raised
`LangDetectException`. -/
def is_english_or_hindi_sentence (D : Str → Option Str) (s : Str) : Bool :=
  match D s with
  | some lang => lang = ['e', 'n'] || lang = ['h', 'i']
  | none => false

/-- The characters kept by the regex substitution
`re.sub(r"[^a-zA-Z0-9\s\.,;:\-\(\)\[\]\'\"\/&•]", "", s)`. -/
def isAllowedChar (c : Char) : Bool :=
  ('a' ≤ c && c ≤ 'z') || ('A' ≤ c && c ≤ 'Z') || ('0' ≤ c && c ≤ '9')
    || isPySpace c || c = '.' || c = ',' || c = ';' || c = ':' || c = '-'
    || c = '(' || c = ')' || c = '[' || c = ']' || c = '\'' || c = '"'
    || c = '/' || c = '&' || c = '•'

/-- Deletion of every character outside the allow-list. -/
def stripDisallowed (s : Str) : Str := s.filter isAllowedChar

/-- Python `re.sub(r"\s+", " ", s)`: replace each maximal whitespace run
with a single space (a whitespace character followed by more whitespace is
dropped; the last whitespace character of a run becomes a space). -/
def collapseWS : Str → Str
  | [] => []
  | [c] => if isPySpace c then [' '] else [c]
  | c :: d :: rest =>
    if isPySpace c then
      if isPySpace d then collapseWS (d :: rest)
      else ' ' :: d :: collapseWS rest
    else c :: collapseWS (d :: rest)

/-- The per-sentence pipeline of the loop body in
`clean_and_keep_only_english`: strip, drop empties, language-check, delete
disallowed characters, collapse whitespace, strip, drop empties. -/
def sentenceFilter (D : Str → Option Str) (s0 : Str) : Option Str :=
  let s := pyStrip s0
  if s.isEmpty then none
  else if !(is_english_or_hindi_sentence D s) then none
  else
    let s2 := pyStrip (collapseWS (stripDisallowed s))
    if 0 < s2.length then some s2 else none

/-- The `valid_sentences` list accumulated by `clean_and_keep_only_english`. -/
def valid_sentences (D : Str → Option Str) (text : Str) : List Str :=
  (split_into_sentences (remove_unwanted_headers text)).filterMap (sentenceFilter D)

/-- Python `clean_and_keep_only_english` (src/parsingText2.py lines
177-203); the source's default `min_length` is 50 and every caller uses
that default. -/
def clean_and_keep_only_english (D : Str → Option Str) (text : Str) (minLength : Nat) : Str :=
  let final := pyStrip (pyJoin ['.', ' '] (valid_sentences D text))
  if final.length < minLength then [] else final

/-- Language-detector oracle that classifies every unit as English; used
to instantiate theorems at concrete inputs. -/
def detectAllEn : Str → Option Str := fun _ => some ['e', 'n']

/-- Concrete input whose first line ends in `"GAZETTE"` and whose second
line starts with `"OF INDIA"`: neither line alone contains a Gazette
marker, but whitespace collapsing glues the phrase together. -/
def gazetteSplitText : Str :=
  ("some first words about the GAZETTE\nOF INDIA notification text").toList

/-- Fixpoint test for `collapseWS`: no whitespace character other than a
plain space, and no two adjacent whitespace characters. -/
def cwFixed : Str → Bool
  | [] => true
  | [c] => !isPySpace c || c = ' '
  | c :: d :: rest =>
    (!isPySpace c || (c = ' ' && !isPySpace d)) && cwFixed (d :: rest)

/-! ## Native text extractor (src/parsingText2.py lines 18-75) -/

/-- Model of one PyMuPDF page as consumed by the native extractor.
`tablesRows` is the full row list reported by `page.find_tables()` (a cell
is `none` when PyMuPDF reports a `None` cell); `tablesFault` is `none` for
a normal run and `some k` when the table loop raises after `k` rows were
appended (`some 0`: `find_tables` itself raised); `text` is
`page.get_text("text")`, `none` when that call raises. -/
structure PageModel where
  tablesRows : List (List (Option Str))
  tablesFault : Option Nat
  text : Option Str

/-- One table row rendered as a line of tab-separated cells:
`(cell if cell else "").strip()` for each cell, then `"\t".join(cells)`. -/
def renderRow (row : List (Option Str)) : Str :=
  pyJoin ['\t'] (row.map fun cell => pyStrip (cell.getD []))

/-- Python `extract_tables_from_page` (src/parsingText2.py lines 18-34):
rows appended before a fault are returned because `results` is initialised
before the `try` and the `except` block only logs. -/
def extract_tables_from_page (rows : List (List (Option Str))) (fault : Option Nat) :
    List Str :=
  match fault with
  | none => rows.map renderRow
  | some k => (rows.take k).map renderRow

/-- Python `extract_text_no_tables` (src/parsingText2.py lines 36-44): the
embedded text layer, or the empty string when `page.get_text` raises. -/
def extract_text_no_tables (textResult : Option Str) : Str := textResult.getD []

/-- The chunks one page contributes inside `extract_pdf_with_pymupdf`'s
loop: the table lines (extended only when the list is non-empty), then the
stripped prose when non-blank. -/
def pageChunks (p : PageModel) : List Str :=
  let tableLines := extract_tables_from_page p.tablesRows p.tablesFault
  let withTables := if tableLines.isEmpty then [] else tableLines
  let normalText := pyStrip (extract_text_no_tables p.text)
  withTables ++ (if normalText.isEmpty then [] else [normalText])

/-- Python `extract_pdf_with_pymupdf` (src/parsingText2.py lines 46-75):
`openResult = none` models `fitz.open` raising; pages are visited in index
order and the chunks are joined by newlines. -/
def extract_pdf_with_pymupdf (isFile : Bool) (openResult : Option (List PageModel)) : Str :=
  if !isFile then []
  else
    match openResult with
    | none => []
    | some pages => pyJoin ['\n'] (pages.flatMap pageChunks)

/-- Spec-side recomposition of §4.2 for claim C4, written from the spec's
words: per page, every detector-reported table row as a tab-separated line
(empty cells as empty strings, detector row order), then the page's prose
block, across pages in order, joined by newlines. -/
def spec_native_output (pages : List PageModel) : Str :=
  pyJoin ['\n'] (pages.flatMap fun p =>
    p.tablesRows.map renderRow ++
      (if (pyStrip (p.text.getD [])).isEmpty then [] else [pyStrip (p.text.getD [])]))

/-! ## OCR fallback extractor (src/parsingText2.py lines 77-130 and
src/OCR_parsing_hin.py lines 32-116) -/

/-- Python `range(start, stop, step)` for a positive step. -/
def pyRange (start stop step : Nat) : List Nat :=
  if _h : 0 < step ∧ start < stop then start :: pyRange (start + step) stop step else []
termination_by stop - start
decreasing_by omega

/-- Python `ocr_image` (src/parsingText2.py lines 91-100): `none` models a
raised exception; a falsy (empty) OCR result is replaced by `""`. -/
def ocr_image (result : Option Str) : Str :=
  match result with
  | none => []
  | some t => if t.isEmpty then [] else t

/-- The 1-based inclusive chunk ranges `(chunk_start, chunk_end)` iterated
by `extract_pdf_with_ocr`: `chunk_start` in
`range(1, total_pages + 1, max_pages_per_chunk)` and
`chunk_end = min(chunk_start + max_pages_per_chunk - 1, total_pages)`. -/
def chunkIntervals (totalPages maxPerChunk : Nat) : List (Nat × Nat) :=
  (pyRange 1 (totalPages + 1) maxPerChunk).map fun s =>
    (s, min (s + maxPerChunk - 1) totalPages)

/-- Python `extract_pdf_with_ocr` (src/parsingText2.py lines 102-130).
`pageCount` is the `fitz` page-count probe (`none`: opening raised);
`convert` models `convert_pdf_to_images` on an inclusive 1-based range
(`none`: conversion failed, so the chunk is skipped by `continue`; an
empty image list is also falsy and skipped); each image is identified with
the `ocr_image` input it will produce.  `executor.map` yields results in
submission order, so a chunk's OCR results appear in page order. -/
def extract_pdf_with_ocr (isFile : Bool) (pageCount : Option Nat)
    (convert : Nat → Nat → Option (List (Option Str))) (maxPerChunk : Nat) : Str :=
  if !isFile then []
  else
    match pageCount with
    | none => []
    | some total =>
      pyJoin ['\n'] ((chunkIntervals total maxPerChunk).flatMap fun se =>
        match convert se.1 se.2 with
        | none => []
        | some images => if images.isEmpty then [] else images.map ocr_image)

/-- Faithful rasterisation oracle: `convert_from_path` over the 1-based
inclusive range `[first, last]` of a fixed page list. -/
def convertModel (pages : List (Option Str)) (first last : Nat) :
    Option (List (Option Str)) :=
  some ((pages.drop (first - 1)).take (last + 1 - first))

/-- Python `process_image` (src/OCR_parsing_hin.py lines 32-54): OCR of one
page image; `none` models a raised exception, which yields `""`. -/
def process_image (result : Option Str) : Str := result.getD []

/-- Python `pdf_to_text` (src/OCR_parsing_hin.py lines 57-116), text
assembly: `pageResults` lists each page's `process_image` output in source
page order, and `completion` is the order in which `as_completed` yields
the page futures (a permutation of the page indices).  Results are
appended in completion order, keeping non-empty, non-blank pages, and
joined by newlines; no re-sort by page index happens. -/
def pdf_to_text (pageResults : List Str) (completion : List Nat) : Str :=
  pyJoin ['\n'] ((completion.map fun i => pageResults.getD i []).filter
    fun t => !t.isEmpty && !(pyStrip t).isEmpty)

/-! ## Extraction orchestrator (src/parsingText2.py lines 205-224) -/

/-- Python `extract_text_from_pdf`: the result paired with whether the OCR
fallback path was entered.  `native` and `ocr` stand for the raw outputs
of `extract_pdf_with_pymupdf` and `extract_pdf_with_ocr` on this file; the
nested truthiness tests of the source are flattened into conditionals. -/
def extract_text_from_pdf (D : Str → Option Str) (isFile : Bool)
    (native ocr : Str) : Option Str × Bool :=
  if !isFile then (none, false)
  else if !(pyStrip native).isEmpty
      && !(clean_and_keep_only_english D native 50).isEmpty then
    (some (clean_and_keep_only_english D native 50), false)
  else if (pyStrip ocr).isEmpty then (none, true)
  else if !(clean_and_keep_only_english D ocr 50).isEmpty then
    (some (clean_and_keep_only_english D ocr 50), true)
  else (none, true)

/-! ## Train/dev split (src/train_devSplit.py) -/

/-- One JSONL record of the split script: an `english` and a `hindi`
string. -/
structure PairRecord where
  english : Str
  hindi : Str

/-- `int(len(data) * (1 - dev_ratio))` with the script's `dev_ratio = 0.1`,
taken in exact arithmetic (the source computes the product in floating
point; for realistic corpus sizes the float value differs from the exact
one by far less than 1, within the claim's rounding tolerance). -/
def split_idx (n : Nat) : Nat := 9 * n / 10

/-- `data[:split_idx]` after the shuffle. -/
def train_data (shuffled : List PairRecord) : List PairRecord :=
  shuffled.take (split_idx shuffled.length)

/-- `data[split_idx:]` after the shuffle. -/
def dev_data (shuffled : List PairRecord) : List PairRecord :=
  shuffled.drop (split_idx shuffled.length)

/-- File content produced by the write loops: `f(item) + "\n"` per item. -/
def writePairFile (f : PairRecord → Str) (items : List PairRecord) : Str :=
  (items.map fun it => f it ++ ['\n']).flatten

/-- The lines of a written file, reading by newline separation. -/
def fileLines (content : Str) : List Str := pySplit '\n' content

/-- Record whose source text contains an embedded newline. -/
def newlineRecord : PairRecord := ⟨('a' :: '\n' :: 'b' :: []), ['h']⟩

/-- Plain single-line record. -/
def plainRecord : PairRecord := ⟨['c'], ['k']⟩

/-! ## Mongo document pass (src/extract.py lines 126-220 and 300-318) -/

/-- One stored judgment document: URL and content field per language
(`engUrl`/`hinUrl` are `none` when the field is absent; `doc.get(field,
"")` makes absent content fields the empty string). -/
structure MongoDoc where
  engUrl : Option Str
  hinUrl : Option Str
  engContent : Str
  hinContent : Str

/-- Python truthiness of a URL field: present and non-empty. -/
def truthyUrl : Option Str → Bool
  | none => false
  | some s => !s.isEmpty

/-- Python `process_document` (src/extract.py lines 126-220): each
language is re-extracted only when its content field is falsy and its URL
field truthy.  One language's whole download/extract attempt is
abstracted as an oracle from URL to extracted text (every exception inside
the attempt is caught and leaves the local content variable empty, an
outcome the oracle can also produce).  Returns the updated document and
the two invocation flags (English attempted, Hindi attempted). -/
def process_document (extractEng extractHin : Str → Str) (doc : MongoDoc) :
    MongoDoc × Bool × Bool :=
  let engInvoked := doc.engContent.isEmpty && truthyUrl doc.engUrl
  let engContent := if engInvoked then extractEng (doc.engUrl.getD []) else doc.engContent
  let hinInvoked := doc.hinContent.isEmpty && truthyUrl doc.hinUrl
  let hinContent := if hinInvoked then extractHin (doc.hinUrl.getD []) else doc.hinContent
  ({ doc with engContent := engContent, hinContent := hinContent }, engInvoked, hinInvoked)

/-- The store write-back of `main` (src/extract.py lines 300-318): a
content field is `$set` only when the processed value is non-empty. -/
def main_update (orig processed : MongoDoc) : MongoDoc :=
  { orig with
    engContent :=
      if !processed.engContent.isEmpty then processed.engContent else orig.engContent,
    hinContent :=
      if !processed.hinContent.isEmpty then processed.hinContent else orig.hinContent }

/-- Concrete 57-character sentence already in the filter's normal form. -/
def plainSentence : Str :=
  ("this plain sample sentence contains many simple words ok").toList

/-- Concrete two-page document: a page with one table row (second cell
`None`) and padded prose, then a table-less page whose text call raises. -/
def samplePages : List PageModel :=
  [⟨[[some ['h'], none]], none, some (' ' :: 'p' :: [])⟩, ⟨[], none, none⟩]

/-- Concrete stored document: both URLs present, English content empty,
Hindi content already extracted. -/
def sampleDoc : MongoDoc := ⟨some ['u'], some ['v'], [], ['h']⟩

/-- Concrete extraction oracle returning a fixed English text. -/
def constExtractE : Str → Str := fun _ => ['E']

/-- Concrete extraction oracle returning a fixed Hindi text. -/
def constExtractH : Str → Str := fun _ => ['H']

/-! ### Lemmas about `splitOnDoWeb` and `fix_url` -/

theorem splitOnDoWeb_ne_nil (s : Str) : splitOnDoWeb s ≠ [] := by
  match s with
  | [] => simp [splitOnDoWeb]
  | c :: rest =>
    rw [splitOnDoWeb]
    split
    · simp
    · split <;> simp

theorem splitOnDoWeb_head_prefix (s : Str) : (splitOnDoWeb s).headD [] <+: s := by
  induction s using splitOnDoWeb.induct with
  | case1 => simp [splitOnDoWeb]
  | case2 c rest hpre ih =>
    rw [splitOnDoWeb, if_pos hpre]
    simp
  | case3 c rest hpre hnil =>
    exact absurd hnil (splitOnDoWeb_ne_nil rest)
  | case4 c rest hpre p ps hsp ih =>
    rw [splitOnDoWeb, if_neg hpre, hsp]
    rw [hsp] at ih
    simp only [List.headD_cons] at ih ⊢
    exact List.cons_prefix_cons.mpr ⟨rfl, ih⟩

theorem prefix_isPrefixOf_false {pat s t : Str} (hst : s <+: t)
    (h : pat.isPrefixOf t = false) : pat.isPrefixOf s = false := by
  by_contra hc
  rw [Bool.not_eq_false, List.isPrefixOf_iff_prefix] at hc
  rw [← Bool.not_eq_true, List.isPrefixOf_iff_prefix] at h
  exact h (hc.trans hst)

theorem splitOnDoWeb_no_pat (s : Str) :
    ∀ p ∈ splitOnDoWeb s, containsSub doWebLit p = false := by
  induction s using splitOnDoWeb.induct with
  | case1 =>
    intro p hp
    simp only [splitOnDoWeb, List.mem_singleton] at hp
    simp [hp, containsSub, doWebLit]
  | case2 c rest hpre ih =>
    intro p hp
    rw [splitOnDoWeb, if_pos hpre] at hp
    rcases List.mem_cons.mp hp with h | h
    · simp [h, containsSub, doWebLit]
    · exact ih p h
  | case3 c rest hpre hnil =>
    exact absurd hnil (splitOnDoWeb_ne_nil rest)
  | case4 c rest hpre q qs hsp ih =>
    intro p hp
    rw [splitOnDoWeb, if_neg hpre, hsp] at hp
    rcases List.mem_cons.mp hp with h | h
    · subst h
      have hq : containsSub doWebLit q = false := ih q (by rw [hsp]; simp)
      have hqpre : q <+: rest := by
        have := splitOnDoWeb_head_prefix rest
        rwa [hsp, List.headD_cons] at this
      have hpre2 : doWebLit.isPrefixOf (c :: rest) = false :=
        Bool.not_eq_true _ ▸ eq_false_of_ne_true hpre
      have h1 : doWebLit.isPrefixOf (c :: q) = false :=
        prefix_isPrefixOf_false (List.cons_prefix_cons.mpr ⟨rfl, hqpre⟩) hpre2
      simp [containsSub, h1, hq]
    · exact ih p (by rw [hsp]; exact List.mem_cons_of_mem q h)

theorem splitOnDoWeb_length (s : Str) (h : containsSub doWebLit s = true) :
    2 ≤ (splitOnDoWeb s).length := by
  induction s using splitOnDoWeb.induct with
  | case1 => simp [containsSub, doWebLit] at h
  | case2 c rest hpre ih =>
    rw [splitOnDoWeb, if_pos hpre]
    have := splitOnDoWeb_ne_nil (rest.drop 4)
    have hlen : 1 ≤ (splitOnDoWeb (rest.drop 4)).length :=
      Nat.one_le_iff_ne_zero.mpr (by simpa using this)
    simp only [List.length_cons]
    omega
  | case3 c rest hpre hnil =>
    exact absurd hnil (splitOnDoWeb_ne_nil rest)
  | case4 c rest hpre q qs hsp ih =>
    rw [splitOnDoWeb, if_neg hpre, hsp]
    have hpre2 : doWebLit.isPrefixOf (c :: rest) = false :=
      Bool.not_eq_true _ ▸ eq_false_of_ne_true hpre
    rw [containsSub, hpre2, Bool.false_or] at h
    have := ih h
    rw [hsp] at this
    simpa using this

theorem isPrefixOf_append_of_five_le (s z : Str) (h5 : 5 ≤ s.length) :
    doWebLit.isPrefixOf (s ++ z) = doWebLit.isPrefixOf s := by
  match s with
  | a :: b :: c :: d :: e :: t => simp [doWebLit, List.isPrefixOf]
  | [] => simp at h5
  | [_] => simp at h5
  | [_, _] => simp at h5
  | [_, _, _] => simp at h5
  | [_, _, _, _] => simp at h5

theorem isPrefixOf_short_repl (s z : Str) (hlt : s.length < 5) :
    doWebLit.isPrefixOf (s ++ (fixUrlRepl ++ z)) = false := by
  match s with
  | [] => simp [doWebLit, fixUrlRepl, List.isPrefixOf]
  | [a] => simp [doWebLit, fixUrlRepl, List.isPrefixOf]
  | [a, b] => simp [doWebLit, fixUrlRepl, List.isPrefixOf]
  | [a, b, c] => simp [doWebLit, fixUrlRepl, List.isPrefixOf]
  | [a, b, c, d] => simp [doWebLit, fixUrlRepl, List.isPrefixOf]
  | _ :: _ :: _ :: _ :: _ :: _ => simp at hlt; omega

theorem isPrefixOf_short_pat (s z : Str) (hne : s ≠ []) (hlt : s.length < 5) :
    doWebLit.isPrefixOf (s ++ (doWebLit ++ z)) = false := by
  match s with
  | [] => exact absurd rfl hne
  | [a] => simp [doWebLit, List.isPrefixOf]
  | [a, b] => simp [doWebLit, List.isPrefixOf]
  | [a, b, c] => simp [doWebLit, List.isPrefixOf]
  | [a, b, c, d] => simp [doWebLit, List.isPrefixOf]
  | _ :: _ :: _ :: _ :: _ :: _ => simp at hlt; omega

theorem not_prefix_extend_repl (s z : Str) (h : doWebLit.isPrefixOf s = false) :
    doWebLit.isPrefixOf (s ++ (fixUrlRepl ++ z)) = false := by
  by_cases h5 : 5 ≤ s.length
  · rw [isPrefixOf_append_of_five_le s _ h5]
    exact h
  · exact isPrefixOf_short_repl s z (by omega)

theorem not_prefix_extend_pat (s z : Str) (hne : s ≠ [])
    (h : doWebLit.isPrefixOf s = false) :
    doWebLit.isPrefixOf (s ++ (doWebLit ++ z)) = false := by
  by_cases h5 : 5 ≤ s.length
  · rw [isPrefixOf_append_of_five_le s _ h5]
    exact h
  · exact isPrefixOf_short_pat s z hne (by omega)

theorem containsSub_repl_mid (p0 p1 : Str)
    (h0 : containsSub doWebLit p0 = false) (h1 : containsSub doWebLit p1 = false) :
    containsSub doWebLit (p0 ++ (fixUrlRepl ++ p1)) = false := by
  induction p0 with
  | nil =>
    simp only [List.nil_append]
    simpa [fixUrlRepl, containsSub, List.isPrefixOf, doWebLit] using h1
  | cons c p0' ih =>
    rw [containsSub, Bool.or_eq_false_iff] at h0
    simp only [List.cons_append, containsSub]
    rw [Bool.or_eq_false_iff]
    refine ⟨?_, ?_⟩
    · have := not_prefix_extend_repl (c :: p0') p1 h0.1
      simpa using this
    · exact ih h0.2

theorem splitOnDoWeb_append_pat (a z : Str) (ha : containsSub doWebLit a = false) :
    splitOnDoWeb (a ++ (doWebLit ++ z)) = a :: splitOnDoWeb z := by
  induction a with
  | nil =>
    show splitOnDoWeb ('d' :: ('o' :: 'W' :: 'e' :: 'b' :: z)) = [] :: splitOnDoWeb z
    rw [splitOnDoWeb]
    rw [if_pos (by simp [doWebLit, List.isPrefixOf])]
    simp [List.drop]
  | cons c a' ih =>
    rw [containsSub, Bool.or_eq_false_iff] at ha
    have hpre : doWebLit.isPrefixOf ((c :: a') ++ (doWebLit ++ z)) = false :=
      not_prefix_extend_pat (c :: a') z (by simp) ha.1
    simp only [List.cons_append] at hpre ⊢
    rw [splitOnDoWeb, if_neg (by simp [hpre]), ih ha.2]

theorem containsSub_append_pat (a z : Str) :
    containsSub doWebLit (a ++ (doWebLit ++ z)) = true := by
  induction a with
  | nil =>
    simp only [List.nil_append]
    show containsSub doWebLit ('d' :: ('o' :: 'W' :: 'e' :: 'b' :: z)) = true
    rw [containsSub]
    simp [doWebLit, List.isPrefixOf]
  | cons c a' ih =>
    rw [List.cons_append, containsSub, ih, Bool.or_true]

theorem fix_url_eq_of_contains (u : Str) (h : containsSub doWebLit u = true) :
    fix_url u = (splitOnDoWeb u).headD [] ++ fixUrlRepl ++ (splitOnDoWeb u).getD 1 [] := by
  have hlen := splitOnDoWeb_length u h
  rw [fix_url, if_pos h, if_pos (by omega)]

/-- C5: `fix_url` is idempotent, and is the identity on URLs that do not
contain the substring `"doWeb"`. -/
theorem fix_url_idempotent_and_noop (u : Str) :
    fix_url (fix_url u) = fix_url u ∧
    (containsSub doWebLit u = false → fix_url u = u) := by
  refine ⟨?_, fun h => by rw [fix_url, h]; simp⟩
  by_cases h : containsSub doWebLit u = true
  · have hlen := splitOnDoWeb_length u h
    obtain ⟨p0, p1, ps, hparts⟩ : ∃ p0 p1 ps, splitOnDoWeb u = p0 :: p1 :: ps := by
      match hsp : splitOnDoWeb u with
      | [] => rw [hsp] at hlen; simp at hlen
      | [x] => rw [hsp] at hlen; simp at hlen
      | p0 :: p1 :: ps => exact ⟨p0, p1, ps, rfl⟩
    have hfix : fix_url u = p0 ++ fixUrlRepl ++ p1 := by
      rw [fix_url_eq_of_contains u h, hparts]
      simp
    have hp0 : containsSub doWebLit p0 = false :=
      splitOnDoWeb_no_pat u p0 (by rw [hparts]; simp)
    have hp1 : containsSub doWebLit p1 = false :=
      splitOnDoWeb_no_pat u p1 (by rw [hparts]; simp)
    have hno : containsSub doWebLit (p0 ++ (fixUrlRepl ++ p1)) = false :=
      containsSub_repl_mid p0 p1 hp0 hp1
    rw [hfix, List.append_assoc, fix_url, hno]
    simp
  · rw [Bool.not_eq_true] at h
    have hu : fix_url u = u := by rw [fix_url, h]; simp
    rw [hu, hu]

/-- C5 witness: a URL without the pattern is left unchanged, and
normalising twice equals normalising once, at a concrete URL. -/
theorem fix_url_idempotent_and_noop_witness :
    containsSub doWebLit ('h' :: 't' :: 't' :: 'p' :: 's' :: []) = false ∧
    fix_url ('h' :: 't' :: 't' :: 'p' :: 's' :: []) = ('h' :: 't' :: 't' :: 'p' :: 's' :: []) :=
  ⟨by decide, (fix_url_idempotent_and_noop ('h' :: 't' :: 't' :: 'p' :: 's' :: [])).2 (by decide)⟩

/-- C10: on a URL with two (or more) occurrences of `"doWeb"`, `fix_url`
keeps the text before the first occurrence, inserts `"do?Web"`, keeps only
the text strictly between the first and second occurrences, and discards
everything from the second occurrence to the end. -/
theorem fix_url_two_occurrences (a b c : Str)
    (ha : containsSub doWebLit a = false) (hb : containsSub doWebLit b = false) :
    fix_url (a ++ (doWebLit ++ (b ++ (doWebLit ++ c)))) = a ++ fixUrlRepl ++ b := by
  have hsplit : splitOnDoWeb (a ++ (doWebLit ++ (b ++ (doWebLit ++ c)))) =
      a :: b :: splitOnDoWeb c := by
    rw [splitOnDoWeb_append_pat a _ ha, splitOnDoWeb_append_pat b _ hb]
  have hc : containsSub doWebLit (a ++ (doWebLit ++ (b ++ (doWebLit ++ c)))) = true :=
    containsSub_append_pat a _
  rw [fix_url_eq_of_contains _ hc, hsplit]
  simp

/-- C10 witness: concrete two-occurrence URL. -/
theorem fix_url_two_occurrences_witness :
    containsSub doWebLit ['A'] = false ∧
    fix_url (['A'] ++ (doWebLit ++ (['B'] ++ (doWebLit ++ ['C'])))) =
      ['A'] ++ fixUrlRepl ++ ['B'] :=
  ⟨by decide, fix_url_two_occurrences ['A'] ['B'] ['C'] (by decide) (by decide)⟩

/-! ### Toolkit: `pySplit` and `pyJoin` -/

theorem pySplit_ne_nil (sep : Char) (l : Str) : pySplit sep l ≠ [] := by
  cases l with
  | nil => simp [pySplit]
  | cons c rest =>
    simp only [pySplit]
    split <;> split <;> simp

theorem pySplit_cons_eq {sep a : Char} {rest q : Str} {qs : List Str}
    (hsp : pySplit sep rest = q :: qs) :
    pySplit sep (a :: rest) = if a = sep then [] :: q :: qs else (a :: q) :: qs := by
  rw [pySplit, hsp]

theorem mem_pySplit {sep : Char} {l p : Str} (hp : p ∈ pySplit sep l) :
    ∀ c ∈ p, c ∈ l := by
  induction l generalizing p with
  | nil =>
    simp [pySplit] at hp
    subst hp
    simp
  | cons a rest ih =>
    match hsp : pySplit sep rest with
    | [] => exact absurd hsp (pySplit_ne_nil sep rest)
    | q :: qs =>
      rw [pySplit_cons_eq hsp] at hp
      by_cases ha : a = sep
      · rw [if_pos ha] at hp
        rcases List.mem_cons.mp hp with h | h
        · subst h; simp
        · intro c hc
          exact List.mem_cons_of_mem a (ih (by rw [hsp]; exact h) c hc)
      · rw [if_neg ha] at hp
        rcases List.mem_cons.mp hp with h | h
        · subst h
          intro c hc
          rcases List.mem_cons.mp hc with h1 | h1
          · simp [h1]
          · exact List.mem_cons_of_mem a (ih (by rw [hsp]; simp) c h1)
        · intro c hc
          exact List.mem_cons_of_mem a
            (ih (by rw [hsp]; exact List.mem_cons_of_mem q h) c hc)

theorem sep_not_mem_pySplit {sep : Char} {l p : Str} (hp : p ∈ pySplit sep l) :
    sep ∉ p := by
  induction l generalizing p with
  | nil =>
    simp [pySplit] at hp
    subst hp
    simp
  | cons a rest ih =>
    match hsp : pySplit sep rest with
    | [] => exact absurd hsp (pySplit_ne_nil sep rest)
    | q :: qs =>
      rw [pySplit_cons_eq hsp] at hp
      by_cases ha : a = sep
      · rw [if_pos ha] at hp
        rcases List.mem_cons.mp hp with h | h
        · subst h; simp
        · exact ih (by rw [hsp]; exact h)
      · rw [if_neg ha] at hp
        rcases List.mem_cons.mp hp with h | h
        · subst h
          intro hmem
          rcases List.mem_cons.mp hmem with h1 | h1
          · exact ha h1.symm
          · exact ih (by rw [hsp]; simp) h1
        · exact ih (by rw [hsp]; exact List.mem_cons_of_mem q h)

theorem pySplit_append_sep {sep : Char} (v rest : Str) (hv : sep ∉ v) :
    pySplit sep (v ++ sep :: rest) = v :: pySplit sep rest := by
  induction v with
  | nil =>
    match hsp : pySplit sep rest with
    | [] => exact absurd hsp (pySplit_ne_nil sep rest)
    | q :: qs =>
      rw [List.nil_append, pySplit_cons_eq hsp, if_pos rfl]
  | cons c v' ih =>
    have hv' : sep ∉ v' := fun h => hv (List.mem_cons_of_mem c h)
    have hc : ¬(c = sep) := fun h => hv (by simp [h])
    match hsp : pySplit sep rest with
    | [] => exact absurd hsp (pySplit_ne_nil sep rest)
    | q :: qs =>
      have hrec : pySplit sep (v' ++ sep :: rest) = v' :: q :: qs := by
        rw [ih hv', hsp]
      rw [List.cons_append, pySplit_cons_eq hrec, if_neg hc]

theorem pySplit_eq_single {sep : Char} (v : Str) (hv : sep ∉ v) :
    pySplit sep v = [v] := by
  induction v with
  | nil => simp [pySplit]
  | cons c v' ih =>
    have hv' : sep ∉ v' := fun h => hv (List.mem_cons_of_mem c h)
    have hc : ¬(c = sep) := fun h => hv (by simp [h])
    rw [pySplit_cons_eq (ih hv'), if_neg hc]

theorem pyJoin_ne_nil (sep : Str) (v : Str) (vs : List Str) (hv : v ≠ []) :
    pyJoin sep (v :: vs) ≠ [] := by
  cases vs with
  | nil => simpa [pyJoin] using hv
  | cons w ws => simp [pyJoin, hv]

theorem mem_pyJoin {sep : Str} {vs : List Str} {c : Char} (hc : c ∈ pyJoin sep vs) :
    (∃ v ∈ vs, c ∈ v) ∨ c ∈ sep := by
  induction vs with
  | nil => simp [pyJoin] at hc
  | cons v ws ih =>
    cases ws with
    | nil =>
      left
      exact ⟨v, by simp, by simpa [pyJoin] using hc⟩
    | cons w ws' =>
      simp only [pyJoin, List.append_assoc, List.mem_append] at hc
      rcases hc with h | h | h
      · exact Or.inl ⟨v, by simp, h⟩
      · exact Or.inr h
      · rcases ih h with ⟨u, hu, hcu⟩ | h2
        · exact Or.inl ⟨u, List.mem_cons_of_mem v hu, hcu⟩
        · exact Or.inr h2

/-! ### Toolkit: `pyStrip` -/

theorem mem_pyStrip {l : Str} {c : Char} (hc : c ∈ pyStrip l) : c ∈ l :=
  List.dropWhile_subset isPySpace
    ((List.rdropWhile_prefix isPySpace (l.dropWhile isPySpace)).sublist.subset hc)

theorem pyStrip_nil : pyStrip [] = [] := rfl

theorem pyStrip_eq_nil_iff {l : Str} : pyStrip l = [] ↔ ∀ c ∈ l, isPySpace c := by
  constructor
  · intro h c hcl
    rw [pyStrip, List.rdropWhile_eq_nil_iff] at h
    rw [← List.takeWhile_append_dropWhile (p := isPySpace) (l := l)] at hcl
    rcases List.mem_append.mp hcl with h1 | h2
    · exact List.mem_takeWhile_imp h1
    · exact h c h2
  · intro h
    have hd : l.dropWhile isPySpace = [] := List.dropWhile_eq_nil_iff.mpr h
    rw [pyStrip, hd, List.rdropWhile_nil]

theorem dropWhile_cons_head {p : Char → Bool} {l : Str} {c : Char} {r : Str}
    (h : l.dropWhile p = c :: r) : p c = false := by
  induction l with
  | nil => simp at h
  | cons a l' ih =>
    rw [List.dropWhile_cons] at h
    by_cases hp : p a = true
    · rw [if_pos hp] at h
      exact ih h
    · rw [if_neg hp] at h
      injection h with h1 h2
      subst h1
      simpa using hp

theorem pyStrip_head_not {l : Str} {c : Char} {r : Str} (h : pyStrip l = c :: r) :
    isPySpace c = false := by
  have hpre : (c :: r) <+: l.dropWhile isPySpace := by
    rw [← h]
    exact List.rdropWhile_prefix _ _
  obtain ⟨t, ht⟩ := hpre
  have heq : l.dropWhile isPySpace = c :: (r ++ t) := by
    rw [← ht]
    simp
  exact dropWhile_cons_head heq

theorem pyStrip_rev_head_not {l : Str} {c : Char} {r : Str}
    (h : (pyStrip l).reverse = c :: r) : isPySpace c = false := by
  rw [pyStrip, List.rdropWhile, List.reverse_reverse] at h
  exact dropWhile_cons_head h

theorem dropWhile_eq_self_of_head {p : Char → Bool} {c : Char} {r : Str}
    (hc : p c = false) : (c :: r).dropWhile p = c :: r := by
  rw [List.dropWhile_cons, if_neg (by simp [hc])]

theorem rdropWhile_eq_self_of_last {p : Char → Bool} {l : Str} {c : Char} {r : Str}
    (hrev : l.reverse = c :: r) (hc : p c = false) : l.rdropWhile p = l := by
  rw [List.rdropWhile, hrev, dropWhile_eq_self_of_head hc, ← hrev, List.reverse_reverse]

theorem pyStrip_idem (l : Str) : pyStrip (pyStrip l) = pyStrip l := by
  match h : pyStrip l with
  | [] => exact pyStrip_nil
  | c :: r =>
    have h1 : isPySpace c = false := pyStrip_head_not h
    have hd : (c :: r).dropWhile isPySpace = c :: r := dropWhile_eq_self_of_head h1
    match hrev : (c :: r).reverse with
    | [] => simp at hrev
    | d :: r' =>
      have h2 : isPySpace d = false := pyStrip_rev_head_not (by rw [h]; exact hrev)
      rw [pyStrip, hd, rdropWhile_eq_self_of_last hrev h2]

theorem pyStrip_cons_space {c : Char} (hc : isPySpace c = true) (v : Str) :
    pyStrip (c :: v) = pyStrip v := by
  rw [pyStrip, pyStrip, List.dropWhile_cons, if_pos (by simp [hc])]

/-! ### Toolkit: `collapseWS` and its fixpoints -/

theorem mem_collapseWS {l : Str} {c0 : Char} (hc : c0 ∈ collapseWS l) :
    c0 ∈ l ∨ c0 = ' ' := by
  induction l using collapseWS.induct with
  | case1 => simp [collapseWS] at hc
  | case2 c hws =>
    rw [collapseWS, if_pos hws] at hc
    simp at hc
    exact Or.inr hc
  | case3 c hws =>
    rw [collapseWS, if_neg hws] at hc
    simp at hc
    exact Or.inl (by simp [hc])
  | case4 c d rest hc1 hd ih =>
    rw [collapseWS, if_pos hc1, if_pos hd] at hc
    rcases ih hc with h | h
    · exact Or.inl (List.mem_cons_of_mem c h)
    · exact Or.inr h
  | case5 c d rest hc1 hd ih =>
    rw [collapseWS, if_pos hc1, if_neg hd] at hc
    rcases List.mem_cons.mp hc with h | h
    · exact Or.inr h
    · rcases List.mem_cons.mp h with h2 | h2
      · exact Or.inl (by simp [h2])
      · rcases ih h2 with h3 | h3
        · exact Or.inl (by simp [h3])
        · exact Or.inr h3
  | case6 c d rest hc1 ih =>
    rw [collapseWS, if_neg hc1] at hc
    rcases List.mem_cons.mp hc with h | h
    · exact Or.inl (by simp [h])
    · rcases ih h with h2 | h2
      · exact Or.inl (List.mem_cons_of_mem c h2)
      · exact Or.inr h2

theorem cwFixed_cons_not_ws {d : Char} {l : Str} (hd : isPySpace d = false)
    (hl : cwFixed l = true) : cwFixed (d :: l) = true := by
  cases l with
  | nil => simp [cwFixed, hd]
  | cons x xs =>
    rw [cwFixed]
    simp [hd, hl]

theorem cwFixed_tail {c : Char} {l : Str} (h : cwFixed (c :: l) = true) :
    cwFixed l = true := by
  cases l with
  | nil => rfl
  | cons x xs =>
    rw [cwFixed, Bool.and_eq_true] at h
    exact h.2

theorem cwFixed_collapseWS (l : Str) : cwFixed (collapseWS l) = true := by
  induction l using collapseWS.induct with
  | case1 => rfl
  | case2 c hws =>
    rw [collapseWS, if_pos hws]
    decide
  | case3 c hws =>
    rw [collapseWS, if_neg hws]
    simp [cwFixed, hws]
  | case4 c d rest hc hd ih =>
    rw [collapseWS, if_pos hc, if_pos hd]
    exact ih
  | case5 c d rest hc hd ih =>
    have hd' : isPySpace d = false := by simpa using hd
    have h2 := cwFixed_cons_not_ws hd' ih
    rw [collapseWS, if_pos hc, if_neg hd, cwFixed, h2]
    simp [hd']
  | case6 c d rest hc ih =>
    rw [collapseWS, if_neg hc]
    exact cwFixed_cons_not_ws (by simpa using hc) ih

theorem collapseWS_of_cwFixed {l : Str} (h : cwFixed l = true) : collapseWS l = l := by
  induction l using collapseWS.induct with
  | case1 => rfl
  | case2 c hws =>
    rw [collapseWS, if_pos hws]
    rw [cwFixed] at h
    simp [hws] at h
    rw [h]
  | case3 c hws => rw [collapseWS, if_neg hws]
  | case4 c d rest hc hd ih =>
    rw [cwFixed, Bool.and_eq_true] at h
    rcases h with ⟨h1, _⟩
    simp [hc, hd] at h1
  | case5 c d rest hc hd ih =>
    rw [cwFixed, Bool.and_eq_true] at h
    rcases h with ⟨h1, h2⟩
    have hceq : c = ' ' := by
      simp [hc, hd] at h1
      exact h1
    have hrest : cwFixed rest = true := cwFixed_tail h2
    rw [collapseWS, if_pos hc, if_neg hd, ih hrest, hceq]
  | case6 c d rest hc ih =>
    rw [cwFixed, Bool.and_eq_true] at h
    rw [collapseWS, if_neg hc, ih h.2]

theorem collapseWS_idem (l : Str) : collapseWS (collapseWS l) = collapseWS l :=
  collapseWS_of_cwFixed (cwFixed_collapseWS l)

theorem cwFixed_append_right {a b : Str} (h : cwFixed (a ++ b) = true) :
    cwFixed b = true := by
  induction a with
  | nil => simpa using h
  | cons c a' ih =>
    exact ih (cwFixed_tail (by simpa using h))

theorem cwFixed_append_left {a b : Str} (h : cwFixed (a ++ b) = true) :
    cwFixed a = true := by
  induction a with
  | nil => rfl
  | cons c a' ih =>
    cases a' with
    | nil =>
      cases b with
      | nil => simpa using h
      | cons x xs =>
        rw [List.cons_append, List.nil_append, cwFixed, Bool.and_eq_true] at h
        rcases h with ⟨h1, _⟩
        rw [cwFixed]
        simp only [Bool.or_eq_true, Bool.and_eq_true] at h1 ⊢
        rcases h1 with h1 | ⟨h1, _⟩
        · exact Or.inl h1
        · exact Or.inr h1
    | cons e a'' =>
      rw [List.cons_append, List.cons_append, cwFixed, Bool.and_eq_true] at h
      rcases h with ⟨h1, h2⟩
      rw [cwFixed, Bool.and_eq_true]
      exact ⟨h1, ih (by rw [List.cons_append]; exact h2)⟩

theorem cwFixed_pyStrip {l : Str} (h : cwFixed l = true) : cwFixed (pyStrip l) = true := by
  have h1 : cwFixed (l.dropWhile isPySpace) = true := by
    obtain ⟨t, ht⟩ := List.dropWhile_suffix (l := l) isPySpace
    rw [← ht] at h
    exact cwFixed_append_right h
  obtain ⟨t, ht⟩ := List.rdropWhile_prefix isPySpace (l.dropWhile isPySpace)
  rw [pyStrip]
  exact cwFixed_append_left (a := (l.dropWhile isPySpace).rdropWhile isPySpace) (b := t)
    (by rw [ht]; exact h1)

theorem rdropWhile_append {p : Char → Bool} {a b : Str} (hb : b.rdropWhile p ≠ []) :
    (a ++ b).rdropWhile p = a ++ b.rdropWhile p := by
  have hne : b.reverse.dropWhile p ≠ [] := by
    intro hnil
    exact hb (by rw [List.rdropWhile, hnil, List.reverse_nil])
  rw [List.rdropWhile, List.reverse_append, List.dropWhile_append,
    if_neg (by simpa [List.isEmpty_iff] using hne), List.reverse_append,
    List.reverse_reverse, List.rdropWhile]

theorem pyStrip_eq_self_parts {l : Str} (h : pyStrip l = l) :
    l.dropWhile isPySpace = l ∧ l.rdropWhile isPySpace = l := by
  have h1 : (l.dropWhile isPySpace).length ≤ l.length :=
    (List.dropWhile_sublist isPySpace).length_le
  have h2 : ((l.dropWhile isPySpace).rdropWhile isPySpace).length ≤
      (l.dropWhile isPySpace).length :=
    (List.rdropWhile_prefix isPySpace (l.dropWhile isPySpace)).sublist.length_le
  rw [pyStrip] at h
  have hlen : (l.dropWhile isPySpace).length = l.length := by
    have := congrArg List.length h
    omega
  have hd : l.dropWhile isPySpace = l :=
    (List.dropWhile_sublist isPySpace).eq_of_length hlen
  rw [hd] at h
  exact ⟨hd, h⟩

theorem pyStrip_eq_self_of_parts {l : Str} (h1 : l.dropWhile isPySpace = l)
    (h2 : l.rdropWhile isPySpace = l) : pyStrip l = l := by
  rw [pyStrip, h1, h2]

theorem pyStrip_join_sentences (vs : List Str) :
    vs ≠ [] → (∀ v ∈ vs, v ≠ [] ∧ pyStrip v = v) →
    pyStrip (pyJoin ['.', ' '] vs) = pyJoin ['.', ' '] vs := by
  induction vs with
  | nil =>
    intro h _
    exact absurd rfl h
  | cons v ws ih =>
    intro _ hv
    cases ws with
    | nil => exact (hv v (by simp)).2
    | cons w ws' =>
      have hvne : v ≠ [] := (hv v (by simp)).1
      have hvs : pyStrip v = v := (hv v (by simp)).2
      have hJs : pyStrip (pyJoin ['.', ' '] (w :: ws')) = pyJoin ['.', ' '] (w :: ws') :=
        ih (by simp) (fun u hu => hv u (List.mem_cons_of_mem v hu))
      have hJne : pyJoin ['.', ' '] (w :: ws') ≠ [] :=
        pyJoin_ne_nil ['.', ' '] w ws' (hv w (by simp)).1
      obtain ⟨hdJ, hrdJ⟩ := pyStrip_eq_self_parts hJs
      obtain ⟨c, r, rfl⟩ : ∃ c r, v = c :: r := by
        cases v with
        | nil => exact absurd rfl hvne
        | cons c r => exact ⟨c, r, rfl⟩
      have hch : isPySpace c = false := pyStrip_head_not hvs
      rw [show pyJoin ['.', ' '] ((c :: r) :: w :: ws') =
        (c :: r) ++ ['.', ' '] ++ pyJoin ['.', ' '] (w :: ws') from rfl]
      apply pyStrip_eq_self_of_parts
      · have hsh : (c :: r) ++ ['.', ' '] ++ pyJoin ['.', ' '] (w :: ws') =
            c :: (r ++ ['.', ' '] ++ pyJoin ['.', ' '] (w :: ws')) := by simp
        rw [hsh, dropWhile_eq_self_of_head hch, ← hsh]
      · rw [rdropWhile_append (by rw [hrdJ]; exact hJne), hrdJ]

theorem pySplit_join_sentences (v : Str) (ws : List Str)
    (hnd : '.' ∉ v) (hws : ∀ u ∈ ws, '.' ∉ u) :
    pySplit '.' (pyJoin ['.', ' '] (v :: ws)) = v :: ws.map (fun u => ' ' :: u) := by
  induction ws generalizing v with
  | nil => simp [pyJoin, pySplit_eq_single v hnd]
  | cons w ws' ih =>
    rw [show pyJoin ['.', ' '] (v :: w :: ws') =
      v ++ ['.', ' '] ++ pyJoin ['.', ' '] (w :: ws') from rfl]
    have hsh : v ++ ['.', ' '] ++ pyJoin ['.', ' '] (w :: ws') =
        v ++ '.' :: (' ' :: pyJoin ['.', ' '] (w :: ws')) := by simp
    rw [hsh, pySplit_append_sep v _ hnd]
    have hrec := ih w (hws w (by simp)) (fun u hu => hws u (List.mem_cons_of_mem w hu))
    rw [pySplit_cons_eq hrec, if_neg (by decide)]
    simp

theorem filterMap_eq_self_of {f : Str → Option Str} {l : List Str}
    (h : ∀ u ∈ l, f u = some u) : l.filterMap f = l := by
  induction l with
  | nil => rfl
  | cons x xs ih =>
    rw [List.filterMap_cons_some (h x (by simp)),
      ih (fun u hu => h u (List.mem_cons_of_mem x hu))]

/-! ### Structure of the filter's output sentences -/

theorem valid_sentences_props (D : Str → Option Str) (t : Str) :
    ∀ v ∈ valid_sentences D t,
      v ≠ [] ∧ pyStrip v = v ∧ cwFixed v = true ∧ stripDisallowed v = v ∧ '.' ∉ v := by
  intro v hv
  rw [valid_sentences] at hv
  obtain ⟨s0, hs0, hf⟩ := List.mem_filterMap.mp hv
  simp only [sentenceFilter] at hf
  by_cases h1 : (pyStrip s0).isEmpty = true
  · rw [if_pos h1] at hf
    exact absurd hf (by simp)
  · rw [if_neg h1] at hf
    by_cases h2 : is_english_or_hindi_sentence D (pyStrip s0) = true
    · rw [if_neg (by simp [h2])] at hf
      by_cases h3 : 0 < (pyStrip (collapseWS (stripDisallowed (pyStrip s0)))).length
      · rw [if_pos h3] at hf
        injection hf with hf
        subst hf
        refine ⟨List.length_pos.mp h3, pyStrip_idem _,
          cwFixed_pyStrip (cwFixed_collapseWS _), ?_, ?_⟩
        · apply List.filter_eq_self.mpr
          intro a ha
          rcases mem_collapseWS (mem_pyStrip ha) with h4 | h4
          · exact List.of_mem_filter h4
          · rw [h4]
            decide
        · intro hdot
          rcases mem_collapseWS (mem_pyStrip hdot) with h4 | h4
          · have h5 : ('.' : Char) ∈ pyStrip s0 := List.mem_of_mem_filter h4
            have h6 : ('.' : Char) ∈ s0 := mem_pyStrip h5
            exact sep_not_mem_pySplit hs0 h6
          · exact absurd h4 (by decide)
      · rw [if_neg h3] at hf
        exact absurd hf (by simp)
    · rw [if_pos (by simp [Bool.not_eq_true] at h2 ⊢; exact h2)] at hf
      exact absurd hf (by simp)

theorem sentenceFilter_fixed (D : Str → Option Str) {v : Str}
    (hne : v ≠ []) (hstrip : pyStrip v = v) (hcw : cwFixed v = true)
    (hallow : stripDisallowed v = v)
    (hdet : is_english_or_hindi_sentence D v = true) :
    sentenceFilter D v = some v := by
  simp only [sentenceFilter, hstrip]
  rw [if_neg (by simp [hne]), if_neg (by simp [hdet]), hallow,
    collapseWS_of_cwFixed hcw, hstrip, if_pos (List.length_pos.mpr hne)]

theorem sentenceFilter_space (D : Str → Option Str) {v : Str}
    (hne : v ≠ []) (hstrip : pyStrip v = v) (hcw : cwFixed v = true)
    (hallow : stripDisallowed v = v)
    (hdet : is_english_or_hindi_sentence D v = true) :
    sentenceFilter D (' ' :: v) = some v := by
  simp only [sentenceFilter, pyStrip_cons_space (c := ' ') (by decide) v, hstrip]
  rw [if_neg (by simp [hne]), if_neg (by simp [hdet]), hallow,
    collapseWS_of_cwFixed hcw, hstrip, if_pos (List.length_pos.mpr hne)]

theorem clean_of_all_ws (D : Str → Option Str) {t : Str}
    (h : ∀ c ∈ t, isPySpace c = true) : clean_and_keep_only_english D t 50 = [] := by
  have hrm : ∀ c ∈ remove_unwanted_headers t, isPySpace c = true := by
    intro c hc
    rw [remove_unwanted_headers] at hc
    rcases mem_pyJoin hc with ⟨v, hv, hcv⟩ | hsep
    · exact h c (mem_pySplit (List.mem_of_mem_filter hv) c hcv)
    · simp at hsep
      rw [hsep]
      decide
  have hvs : valid_sentences D t = [] := by
    rw [valid_sentences, List.filterMap_eq_nil_iff]
    intro s0 hs0
    rw [split_into_sentences] at hs0
    have hall : ∀ c ∈ s0, isPySpace c = true := fun c hc => hrm c (mem_pySplit hs0 c hc)
    have hnil : pyStrip s0 = [] := pyStrip_eq_nil_iff.mpr hall
    simp [sentenceFilter, hnil]
  rw [clean_and_keep_only_english, hvs]
  simp [pyJoin, pyStrip_nil]

/-- C6 counterexample: with a detector that accepts everything as English,
filtering `gazetteSplitText` once yields a 61-character text containing
`"GAZETTE OF INDIA"` (the phrase is glued together from two lines by
whitespace collapsing), and filtering that output again deletes it as a
header line, so the filter is not idempotent. -/
theorem clean_not_idempotent :
    clean_and_keep_only_english detectAllEn
        (clean_and_keep_only_english detectAllEn gazetteSplitText 50) 50 ≠
      clean_and_keep_only_english detectAllEn gazetteSplitText 50 := by
  decide

/-- C6 amended: the language filter is idempotent on inputs whose filtered
output still passes the boilerplate-header filter unchanged and whose
output sentences the language detector again classifies as English or
Hindi. -/
theorem clean_idempotent_conditional (D : Str → Option Str) (t : Str)
    (h0 : clean_and_keep_only_english D t 50 ≠ [])
    (hhdr : remove_unwanted_headers (clean_and_keep_only_english D t 50) =
      clean_and_keep_only_english D t 50)
    (hdet : ∀ v ∈ valid_sentences D t, is_english_or_hindi_sentence D v = true) :
    clean_and_keep_only_english D (clean_and_keep_only_english D t 50) 50 =
      clean_and_keep_only_english D t 50 := by
  by_cases hlt : (pyStrip (pyJoin ['.', ' '] (valid_sentences D t))).length < 50
  · rw [clean_and_keep_only_english, if_pos hlt] at h0
    exact absurd rfl h0
  · have hOeq : clean_and_keep_only_english D t 50 =
        pyStrip (pyJoin ['.', ' '] (valid_sentences D t)) := by
      rw [clean_and_keep_only_english, if_neg hlt]
    have hvne : valid_sentences D t ≠ [] := by
      intro hnil
      rw [hnil] at hlt
      simp [pyJoin, pyStrip_nil] at hlt
    have hprops := valid_sentences_props D t
    have hJoin : pyStrip (pyJoin ['.', ' '] (valid_sentences D t)) =
        pyJoin ['.', ' '] (valid_sentences D t) :=
      pyStrip_join_sentences (valid_sentences D t) hvne
        (fun v hv => ⟨(hprops v hv).1, (hprops v hv).2.1⟩)
    obtain ⟨v, ws, hvs⟩ : ∃ v ws, valid_sentences D t = v :: ws := by
      match hm : valid_sentences D t with
      | [] => exact absurd hm hvne
      | v :: ws => exact ⟨v, ws, rfl⟩
    have hO : clean_and_keep_only_english D t 50 = pyJoin ['.', ' '] (v :: ws) := by
      rw [hOeq, hJoin, hvs]
    have hsplitO : pySplit '.' (clean_and_keep_only_english D t 50) =
        v :: ws.map (fun u => ' ' :: u) := by
      rw [hO]
      exact pySplit_join_sentences v ws
        ((hprops v (by rw [hvs]; simp)).2.2.2.2)
        (fun u hu => (hprops u (by rw [hvs]; exact List.mem_cons_of_mem v hu)).2.2.2.2)
    have hvsO : valid_sentences D (clean_and_keep_only_english D t 50) =
        v :: ws := by
      rw [valid_sentences, split_into_sentences, hhdr, hsplitO]
      have hvp := hprops v (by rw [hvs]; simp)
      rw [List.filterMap_cons_some (sentenceFilter_fixed D hvp.1 hvp.2.1 hvp.2.2.1
        hvp.2.2.2.1 (hdet v (by rw [hvs]; simp)))]
      congr 1
      rw [List.filterMap_map]
      apply filterMap_eq_self_of
      intro u hu
      have hup := hprops u (by rw [hvs]; exact List.mem_cons_of_mem v hu)
      exact sentenceFilter_space D hup.1 hup.2.1 hup.2.2.1 hup.2.2.2.1
        (hdet u (by rw [hvs]; exact List.mem_cons_of_mem v hu))
    rw [clean_and_keep_only_english, hvsO, ← hvs, hJoin]
    rw [hJoin] at hlt
    rw [if_neg hlt, hOeq, hJoin]

/-- C6 amended witness: a concrete plain sentence satisfies the amended
theorem's hypotheses and is a fixpoint of the filter. -/
theorem clean_idempotent_conditional_witness :
    (clean_and_keep_only_english detectAllEn plainSentence 50 ≠ [] ∧
      remove_unwanted_headers (clean_and_keep_only_english detectAllEn plainSentence 50) =
        clean_and_keep_only_english detectAllEn plainSentence 50 ∧
      ∀ v ∈ valid_sentences detectAllEn plainSentence,
        is_english_or_hindi_sentence detectAllEn v = true) ∧
    clean_and_keep_only_english detectAllEn
        (clean_and_keep_only_english detectAllEn plainSentence 50) 50 =
      clean_and_keep_only_english detectAllEn plainSentence 50 :=
  ⟨⟨by decide, by decide, by decide⟩,
    clean_idempotent_conditional detectAllEn plainSentence (by decide) (by decide) (by decide)⟩

/-- C2: whenever the filtered native (embedded-text-layer) extraction is
longer than 50 characters, the orchestrator returns exactly that filtered
native text and the OCR fallback is never invoked. -/
theorem native_short_circuit (D : Str → Option Str) (native ocr : Str)
    (h : 50 < (clean_and_keep_only_english D native 50).length) :
    extract_text_from_pdf D true native ocr =
      (some (clean_and_keep_only_english D native 50), false) := by
  have hclean : (clean_and_keep_only_english D native 50).isEmpty = false := by
    rw [List.isEmpty_eq_false_iff_exists_mem]
    match hm : clean_and_keep_only_english D native 50 with
    | [] => rw [hm] at h; simp at h
    | c :: r => exact ⟨c, by simp⟩
  have hnative : (pyStrip native).isEmpty = false := by
    match hm : pyStrip native with
    | [] =>
      have hws : ∀ c ∈ native, isPySpace c = true := pyStrip_eq_nil_iff.mp hm
      rw [clean_of_all_ws D hws] at h
      simp at h
    | c :: r => simp
  rw [extract_text_from_pdf]
  rw [if_neg (by simp), if_pos (by rw [hclean, hnative]; rfl)]

/-- C2 witness: a concrete 57-character clean native text short-circuits
OCR. -/
theorem native_short_circuit_witness :
    50 < (clean_and_keep_only_english detectAllEn plainSentence 50).length ∧
    extract_text_from_pdf detectAllEn true plainSentence [] =
      (some (clean_and_keep_only_english detectAllEn plainSentence 50), false) :=
  ⟨by decide, native_short_circuit detectAllEn plainSentence [] (by decide)⟩

/-! ### Native extractor and fault isolation -/

theorem if_isEmpty_self (l : List Str) : (if l.isEmpty then ([] : List Str) else l) = l := by
  cases l <;> simp

theorem flatMap_congr_mem {α β : Type} {f g : α → List β} {l : List α}
    (h : ∀ p ∈ l, f p = g p) : l.flatMap f = l.flatMap g := by
  induction l with
  | nil => rfl
  | cons x xs ih =>
    rw [List.flatMap_cons, List.flatMap_cons, h x (by simp),
      ih (fun p hp => h p (List.mem_cons_of_mem x hp))]

/-- C4: for a PDF that opens, the native extractor's output is exactly the
spec recomposition — per page its table rows as tab-separated lines (rows
in detector order, empty cells as empty strings) followed by the page's
prose block, across pages in order, joined by newlines — whenever no
page's table loop faults. -/
theorem native_output_composition (pages : List PageModel)
    (hnf : ∀ p ∈ pages, p.tablesFault = none) :
    extract_pdf_with_pymupdf true (some pages) = spec_native_output pages := by
  rw [extract_pdf_with_pymupdf, spec_native_output, if_neg (by simp)]
  congr 1
  apply flatMap_congr_mem
  intro p hp
  rw [pageChunks, hnf p hp, extract_tables_from_page, if_isEmpty_self]
  rfl

/-- C4 witness: concrete two-page document with a `None` cell and a page
whose text call raises. -/
theorem native_output_composition_witness :
    (∀ p ∈ samplePages, p.tablesFault = none) ∧
    extract_pdf_with_pymupdf true (some samplePages) = spec_native_output samplePages :=
  ⟨by decide, native_output_composition samplePages (by decide)⟩

/-- C3 counterexample: a table-extraction failure thrown after one row was
already appended contributes that row, not the empty content the claim
demands. -/
theorem page_fault_partial_rows :
    extract_tables_from_page [[some ['a']], [some ['b']]] (some 1) ≠ [] := by
  decide

/-- C3 amended: a per-page failure never propagates and never aborts the
document — the surrounding pages' contributions are exactly the untouched
concatenation — and the failing page contributes the table rows extracted
before the failure (zero rows when detection fails at the start) and the
empty string for a text-layer or OCR failure. -/
theorem page_fault_isolation :
    (∀ rows k, extract_tables_from_page rows (some k) = (rows.take k).map renderRow ∧
      extract_tables_from_page rows (some k) <+: extract_tables_from_page rows none) ∧
    (∀ rows, extract_tables_from_page rows (some 0) = []) ∧
    extract_text_no_tables none = [] ∧ ocr_image none = [] ∧ process_image none = [] ∧
    (∀ ps1 ps2 p, extract_pdf_with_pymupdf true (some (ps1 ++ p :: ps2)) =
      pyJoin ['\n'] (ps1.flatMap pageChunks ++ (pageChunks p ++ ps2.flatMap pageChunks))) := by
  refine ⟨fun rows k => ⟨rfl, ?_⟩, fun rows => by simp [extract_tables_from_page],
    rfl, rfl, rfl, fun ps1 ps2 p => ?_⟩
  · rw [extract_tables_from_page, extract_tables_from_page]
    exact (List.take_prefix k rows).map renderRow
  · rw [extract_pdf_with_pymupdf, if_neg (by simp)]
    rw [List.flatMap_append, List.flatMap_cons]

/-! ### OCR ordering and chunking -/

/-- C1 (code-bug exhibit): `pdf_to_text` appends OCR results in the order
`as_completed` yields them; when the pool completes page 2 before page 1
the output is `"b\na"`, differing from the page-order output `"a\nb"`, so
the concatenated text depends on worker-pool scheduling. -/
theorem pdf_to_text_completion_order_dependent :
    pdf_to_text [['a'], ['b']] [1, 0] = ('b' :: '\n' :: 'a' :: []) ∧
    pdf_to_text [['a'], ['b']] [1, 0] ≠ pdf_to_text [['a'], ['b']] [0, 1] := by
  exact ⟨by decide, by decide⟩

theorem pyRange_chunks_cover {α : Type} (C : Nat) (hC : 0 < C) (pages : List α) :
    ∀ n start, pages.length + 1 - start ≤ n → 0 < start →
      (pyRange start (pages.length + 1) C).flatMap
        (fun s => (pages.drop (s - 1)).take (min (s + C - 1) pages.length + 1 - s)) =
      pages.drop (start - 1) := by
  intro n
  induction n with
  | zero =>
    intro start hle hpos
    rw [pyRange, dif_neg (by omega)]
    simp [List.drop_eq_nil_of_le (by omega : pages.length ≤ start - 1)]
  | succ n ih =>
    intro start hle hpos
    by_cases hlt : start < pages.length + 1
    · rw [pyRange, dif_pos ⟨hC, hlt⟩, List.flatMap_cons]
      rw [ih (start + C) (by omega) (by omega)]
      have hdd : (pages.drop (start - 1)).drop (min (start + C - 1) pages.length + 1 - start) =
          pages.drop (start + C - 1) := by
        rw [List.drop_drop]
        by_cases hbig : start + C - 1 ≤ pages.length
        · congr 1
          omega
        · rw [List.drop_eq_nil_of_le (by omega), List.drop_eq_nil_of_le (by omega)]
      rw [← hdd, List.take_append_drop]
    · rw [pyRange, dif_neg (by omega)]
      simp [List.drop_eq_nil_of_le (by omega : pages.length ≤ start - 1)]

theorem chunkIntervals_cover {α : Type} (C : Nat) (hC : 0 < C) (pages : List α) :
    (chunkIntervals pages.length C).flatMap
      (fun se => (pages.drop (se.1 - 1)).take (se.2 + 1 - se.1)) = pages := by
  rw [chunkIntervals, List.flatMap_map]
  have hcover := pyRange_chunks_cover C hC pages (pages.length + 1) 1 (by omega) (by omega)
  have hpages : pages.drop (1 - 1) = pages := by simp
  exact Eq.trans (flatMap_congr_mem (fun s _ => rfl)) (hcover.trans hpages)

/-- C7: the OCR extractor's chunk loop covers every page exactly once in
source order (chunked extraction equals the page-order per-page map), each
chunk spans at most the chunk size, and a 120-page document with chunk
size 50 is processed as exactly the three chunks 1-50, 51-100, 101-120. -/
theorem ocr_chunking (pages : List (Option Str)) (C : Nat) (hC : 0 < C) :
    extract_pdf_with_ocr true (some pages.length) (convertModel pages) C =
      pyJoin ['\n'] (pages.map ocr_image) ∧
    (∀ se ∈ chunkIntervals pages.length C, se.2 + 1 - se.1 ≤ C) ∧
    chunkIntervals 120 50 = [(1, 50), (51, 100), (101, 120)] := by
  refine ⟨?_, ?_, ?_⟩
  · rw [extract_pdf_with_ocr, if_neg (by simp)]
    congr 1
    have hstep : ∀ se : Nat × Nat,
        (match convertModel pages se.1 se.2 with
          | none => []
          | some images => if images.isEmpty then [] else images.map ocr_image) =
        ((pages.drop (se.1 - 1)).take (se.2 + 1 - se.1)).map ocr_image := by
      intro se
      rw [convertModel]
      rcases hm : (pages.drop (se.1 - 1)).take (se.2 + 1 - se.1) with _ | ⟨x, xs⟩
      · simp
      · simp
    have h1 : (chunkIntervals pages.length C).flatMap
        (fun se =>
          match convertModel pages se.1 se.2 with
          | none => []
          | some images => if images.isEmpty then [] else images.map ocr_image) =
        (chunkIntervals pages.length C).flatMap
          (fun se => ((pages.drop (se.1 - 1)).take (se.2 + 1 - se.1)).map ocr_image) :=
      flatMap_congr_mem (fun se _ => hstep se)
    rw [h1, ← List.map_flatMap, chunkIntervals_cover C hC pages]
  · intro se hse
    rw [chunkIntervals] at hse
    obtain ⟨s, _, rfl⟩ := List.mem_map.mp hse
    simp only
    omega
  · simp [chunkIntervals, pyRange]

/-- C7 witness: concrete two-page document with chunk size 1. -/
theorem ocr_chunking_witness :
    0 < 1 ∧
    (extract_pdf_with_ocr true (some ([some ['x'], none] : List (Option Str)).length)
        (convertModel [some ['x'], none]) 1 =
      pyJoin ['\n'] (([some ['x'], none] : List (Option Str)).map ocr_image) ∧
    (∀ se ∈ chunkIntervals ([some ['x'], none] : List (Option Str)).length 1,
      se.2 + 1 - se.1 ≤ 1) ∧
    chunkIntervals 120 50 = [(1, 50), (51, 100), (101, 120)]) :=
  ⟨by decide, ocr_chunking [some ['x'], none] 1 (by decide)⟩

/-! ### Train/dev split -/

theorem writePairFile_cons (f : PairRecord → Str) (r : PairRecord)
    (rest : List PairRecord) :
    writePairFile f (r :: rest) = (f r ++ ['\n']) ++ writePairFile f rest := by
  rw [writePairFile, List.map_cons, List.flatten_cons, writePairFile]

theorem fileLines_write (f : PairRecord → Str) (items : List PairRecord)
    (h : ∀ r ∈ items, '\n' ∉ f r) :
    fileLines (writePairFile f items) = items.map f ++ [[]] := by
  induction items with
  | nil => rfl
  | cons r rest ih =>
    have hsh : (f r ++ ['\n']) ++ writePairFile f rest =
        f r ++ '\n' :: writePairFile f rest := by simp
    rw [writePairFile_cons, fileLines, hsh, pySplit_append_sep (f r) _ (h r (by simp))]
    rw [show pySplit '\n' (writePairFile f rest) = fileLines (writePairFile f rest) from rfl,
      ih (fun u hu => h u (List.mem_cons_of_mem r hu))]
    simp

/-- C8 counterexample: with a record whose English text embeds a newline
and the identity permutation as the shuffle outcome, line 0 of the written
train-source file is `"a"`, not the record's English text `"a\nb"`, so the
line-index pairing of the claim fails. -/
theorem train_dev_split_newline_cex :
    (fileLines (writePairFile (fun r => r.english)
        (train_data [newlineRecord, plainRecord]))).getD 0 [] ≠
      ((train_data [newlineRecord, plainRecord]).getD 0 plainRecord).english := by
  decide

/-- C8 amended: for records free of embedded newlines, the shuffled split
satisfies `len(train) + len(dev) = N`, the dev size is `N/10` up to one
(the exact-arithmetic value of `N - int(N * 0.9)`), and each written file
is exactly the per-record field list line by line, so line `i` of the
source file and line `i` of the target file come from the same record, for
the train pair and the dev pair alike. -/
theorem train_dev_split_props (data shuffled : List PairRecord)
    (hperm : shuffled.Perm data)
    (hnl : ∀ r ∈ data, '\n' ∉ r.english ∧ '\n' ∉ r.hindi) :
    (train_data shuffled).length + (dev_data shuffled).length = data.length ∧
    data.length / 10 ≤ (dev_data shuffled).length ∧
    (dev_data shuffled).length ≤ data.length / 10 + 1 ∧
    fileLines (writePairFile (fun r => r.english) (train_data shuffled)) =
      (train_data shuffled).map (fun r => r.english) ++ [[]] ∧
    fileLines (writePairFile (fun r => r.hindi) (train_data shuffled)) =
      (train_data shuffled).map (fun r => r.hindi) ++ [[]] ∧
    fileLines (writePairFile (fun r => r.english) (dev_data shuffled)) =
      (dev_data shuffled).map (fun r => r.english) ++ [[]] ∧
    fileLines (writePairFile (fun r => r.hindi) (dev_data shuffled)) =
      (dev_data shuffled).map (fun r => r.hindi) ++ [[]] := by
  have hlen : shuffled.length = data.length := hperm.length_eq
  have hs : ∀ r ∈ shuffled, '\n' ∉ r.english ∧ '\n' ∉ r.hindi :=
    fun r hr => hnl r (hperm.mem_iff.mp hr)
  have htr : ∀ r ∈ train_data shuffled, '\n' ∉ r.english ∧ '\n' ∉ r.hindi :=
    fun r hr => hs r (List.take_subset _ _ hr)
  have hdv : ∀ r ∈ dev_data shuffled, '\n' ∉ r.english ∧ '\n' ∉ r.hindi :=
    fun r hr => hs r (List.drop_subset _ _ hr)
  have hsplit : split_idx shuffled.length ≤ shuffled.length := by
    rw [split_idx]
    omega
  refine ⟨?_, ?_, ?_,
    fileLines_write _ _ (fun r hr => (htr r hr).1),
    fileLines_write _ _ (fun r hr => (htr r hr).2),
    fileLines_write _ _ (fun r hr => (hdv r hr).1),
    fileLines_write _ _ (fun r hr => (hdv r hr).2)⟩
  · rw [train_data, dev_data, List.length_take_of_le hsplit, List.length_drop,
      split_idx, hlen]
    omega
  · rw [dev_data, List.length_drop, split_idx, hlen]
    omega
  · rw [dev_data, List.length_drop, split_idx, hlen]
    omega

/-- C8 amended witness: singleton newline-free corpus with the identity
shuffle. -/
theorem train_dev_split_props_witness :
    ([plainRecord] : List PairRecord).Perm [plainRecord] ∧
    (∀ r ∈ ([plainRecord] : List PairRecord), '\n' ∉ r.english ∧ '\n' ∉ r.hindi) ∧
    (train_data [plainRecord]).length + (dev_data [plainRecord]).length =
      ([plainRecord] : List PairRecord).length :=
  ⟨List.Perm.refl _, by decide,
    (train_dev_split_props [plainRecord] [plainRecord] (List.Perm.refl _) (by decide)).1⟩

/-! ### Mongo document pass -/

/-- C9: a document whose Hindi content already exists and whose English
content is empty is re-processed only for English (English attempted,
Hindi not attempted), and the stored Hindi content value is identical
before and after the pass, both in the processed document and after the
store write-back. -/
theorem hindi_preserved_on_english_pass (fE fH : Str → Str) (doc : MongoDoc)
    (hhin : doc.hinContent ≠ []) (heng : doc.engContent = [])
    (hurl : truthyUrl doc.engUrl = true) :
    (process_document fE fH doc).2.1 = true ∧
    (process_document fE fH doc).2.2 = false ∧
    (process_document fE fH doc).1.hinContent = doc.hinContent ∧
    (main_update doc (process_document fE fH doc).1).hinContent = doc.hinContent := by
  have h1 : doc.engContent.isEmpty = true := by rw [heng]; rfl
  have h2 : doc.hinContent.isEmpty = false := by
    match hm : doc.hinContent with
    | [] => exact absurd hm hhin
    | c :: r => rfl
  simp [process_document, main_update, h1, h2, hurl]

/-- C9 witness: concrete document with existing Hindi content and empty
English content. -/
theorem hindi_preserved_on_english_pass_witness :
    (sampleDoc.hinContent ≠ [] ∧ sampleDoc.engContent = [] ∧
      truthyUrl sampleDoc.engUrl = true) ∧
    (process_document constExtractE constExtractH sampleDoc).2.1 = true ∧
    (process_document constExtractE constExtractH sampleDoc).2.2 = false ∧
    (process_document constExtractE constExtractH sampleDoc).1.hinContent =
      sampleDoc.hinContent ∧
    (main_update sampleDoc
        (process_document constExtractE constExtractH sampleDoc).1).hinContent =
      sampleDoc.hinContent :=
  ⟨⟨by decide, by decide, by decide⟩,
    hindi_preserved_on_english_pass constExtractE constExtractH sampleDoc
      (by decide) (by decide) (by decide)⟩
